import Mathlib

/-!
# Verification of the hmoog session-protocol engine

A shallow embedding, in Lean 4, of the core logic of the `hmoog` library:
the color-markup parser (`src/terminal/parsing.ts`), the color-stripping
helper (`removeColors` in `utils.ts`), the log-correlation state machine
(`removeOldLines` / `updateShell`), echo matching (`#postProcess`), the
hardline cooldown parser (`#getHardlineCooldown`), the send validation
(`sendRaw` / `sendCommand`) and the retry loop of `run`.

JavaScript strings are modelled as `List Char` (each relevant character is
a single UTF-16 unit), fallible code as `Except`, and the recursive-descent
parser with an explicit fuel argument (structural recursion, so that every
definition computes by `decide`).  Where the repository holds several
revisions of the same method, each revision that a claim cites is embedded
separately and named accordingly.
-/

deriving instance DecidableEq for Except

/-! ## JavaScript string primitives -/

/-- `leadsWith pat l` is true when the list `l` starts with `pat`
(the prefix test JS performs via `String.startsWith`). -/
def leadsWith : List Char → List Char → Bool
| [], _ => true
| _ :: _, [] => false
| p :: ps, c :: cs => p = c && leadsWith ps cs

/-- Substring containment, i.e. JavaScript `String.includes`:
`containsList sub l` is true when `sub` occurs contiguously in `l`. -/
def containsList (sub : List Char) : List Char → Bool
| [] => leadsWith sub []
| c :: cs => leadsWith sub (c :: cs) || containsList sub cs

/-- JS `haystack.includes(needle)` on strings. -/
def jsIncludes (haystack needle : String) : Bool :=
  containsList needle.data haystack.data

/-- Index of the last element satisfying `p`, i.e. JS `Array.findLastIndex`
(with `none` standing for the JS result `-1`). -/
def findLastIdx? {α : Type} (p : α → Bool) : List α → Option Nat
| [] => none
| x :: xs =>
  match findLastIdx? p xs with
  | some i => some (i + 1)
  | none => if p x then some 0 else none

/-- JS `str.replaceAll(a, b)` for single characters `a`, `b`. -/
def replaceAllChar (a b : Char) (l : List Char) : List Char :=
  l.map (fun c => if c = a then b else c)

/-- JS `str.replace(c, '')`: remove the first occurrence of the character `c`. -/
def removeFirst (c : Char) : List Char → List Char
| [] => []
| x :: xs => if x = c then xs else x :: removeFirst c xs

/-- Value of a decimal digit, `none` for any other character. -/
def digitVal (c : Char) : Option Nat :=
  if '0' ≤ c ∧ c ≤ '9' then some (c.toNat - 48) else none

/-- Value of a hexadecimal digit (JS `parseInt(_, 16)` accepts both cases). -/
def hexDigitVal (c : Char) : Option Nat :=
  if '0' ≤ c ∧ c ≤ '9' then some (c.toNat - 48)
  else if 'A' ≤ c ∧ c ≤ 'F' then some (c.toNat - 65 + 10)
  else if 'a' ≤ c ∧ c ≤ 'f' then some (c.toNat - 97 + 10)
  else none

/-- Accumulate the leading digits of a number (JS `parseInt` keeps parsing
until the first non-digit and ignores the rest). -/
def accumDigits (dv : Char → Option Nat) (base : Nat) (acc : Nat) : List Char → Nat
| [] => acc
| c :: cs =>
  match dv c with
  | some v => accumDigits dv base (acc * base + v) cs
  | none => acc

/-- Leading-digit parse; `none` models the JS result `NaN`. -/
def parseDigits (dv : Char → Option Nat) (base : Nat) : List Char → Option Nat
| [] => none
| c :: cs =>
  match dv c with
  | some v => some (accumDigits dv base v cs)
  | none => none

/-- JS `parseInt(str)` (radix 10): skip leading whitespace, optional sign,
then leading decimal digits; `none` models `NaN`. -/
def jsParseInt (l : List Char) : Option Int :=
  let l := l.dropWhile Char.isWhitespace
  match l with
  | '-' :: rest => (parseDigits digitVal 10 rest).map (fun n => -(n : Int))
  | '+' :: rest => (parseDigits digitVal 10 rest).map (fun n => (n : Int))
  | _ => (parseDigits digitVal 10 l).map (fun n => (n : Int))

/-! ## Parse tree (`src/terminal/types.ts`)

The source represents children as a JS array; here `NodeList` is an
inline list type so that all recursions over the tree are structural. -/

mutual
/-- A parsed markup node: a text leaf, or a color node with the raw hex
encoding, the eagerly decoded RGBA channels (`none` per channel models a
`NaN` from `parseInt`) and its children. -/
inductive Node where
| text : List Char → Node
| color : List Char → List (Option Nat) → NodeList → Node
deriving DecidableEq, Repr
/-- A sequence of parsed nodes (a JS array of nodes). -/
inductive NodeList where
| nil : NodeList
| cons : Node → NodeList → NodeList
deriving DecidableEq, Repr
end

/-- The transient parser result: a proper node or an end tag
(`NodeType.END_TAG` in the source, eliminated before `parseAll` returns). -/
inductive ParseNode where
| node : Node → ParseNode
| endTag : List Char → ParseNode
deriving DecidableEq, Repr

/-- The fatal parse errors (`throw new Error(...)` sites in `parsing.ts`).
The error payloads carry the interesting part of the JS message. -/
inductive ParseErr where
| danglingEnd : List Char → ParseErr
| unknownTag : List Char → ParseErr
| neverClosed : ParseErr
| eofInColor : ParseErr
| outOfFuel : ParseErr
deriving DecidableEq, Repr

/-- `hexToRgba`: each channel is `parseInt(color.substring(2i, 2i+2), 16)`. -/
def hexByte (l : List Char) : Option Nat :=
  parseDigits hexDigitVal 16 l

/-- `hexToRgba` from `parsing.ts`: decode the four RGBA bytes. -/
def hexToRgba (color : List Char) : List (Option Nat) :=
  [hexByte (color.take 2),
   hexByte ((color.drop 2).take 2),
   hexByte ((color.drop 4).take 2),
   hexByte ((color.drop 6).take 2)]

/-- `charReplacements` from `parsing.ts`: the colorable-backtick stand-in
`\xab` becomes a backtick, and the angle-bracket stand-ins `\xc8`/`\xc9`
become literal angle brackets. -/
def replaceChar (c : Char) : Char :=
  if c = '\xab' then '\x60'
  else if c = '\xc8' then '<'
  else if c = '\xc9' then '>'
  else c

/-- Is `c` one of the three stand-in characters (`isReplaceable`)? -/
def isStandIn (c : Char) : Bool :=
  c = '\xab' || c = '\xc8' || c = '\xc9'

/-- `ShellParser.parseText`: consume characters up to the next `<`,
substituting the stand-ins; returns the text and the unconsumed rest. -/
def parseTextRun : List Char → List Char × List Char
| [] => ([], [])
| c :: cs =>
  if c = '<' then ([], c :: cs)
  else
    let r := parseTextRun cs
    (replaceChar c :: r.1, r.2)

/-- The characters of `'<color=#'`, the only recognized start-tag form. -/
def openTagPart : List Char := ['<', 'c', 'o', 'l', 'o', 'r', '=', '#']

/-- The characters of `'</color>'`. -/
def closeTagPart : List Char := ['<', '/', 'c', 'o', 'l', 'o', 'r', '>']

/-- `ShellParser.parseEndTag`: the name is everything between `</` and the
first `>`; a missing `>` is the `Tag was never closed` error. -/
def parseEndTag (s : List Char) : Except ParseErr (ParseNode × List Char) :=
  let i := (s.takeWhile (fun c => c ≠ '>')).length
  if i = s.length then .error .neverClosed
  else .ok (.endTag ((s.take i).drop 2), s.drop (i + 1))

mutual
/-- `ShellParser.parseTag`, with fuel making the mutual recursion with the
children loop structural.  Branches, in source order: text run when the
input does not start with `<`; end tag on `</`; the `Unknown tag` error
when the start is not `<color=#`; otherwise 8 hex characters and the `>`
are consumed blindly (`substring(17)`) and children are parsed up to the
matching end tag. -/
def parseTagF : Nat → List Char → Except ParseErr (ParseNode × List Char)
| 0, _ => .error .outOfFuel
| fuel + 1, s =>
  if !leadsWith ['<'] s then
    let r := parseTextRun s
    .ok (.node (.text r.1), r.2)
  else if leadsWith ['<', '/'] s then parseEndTag s
  else if !leadsWith openTagPart s then
    .error (.unknownTag ((s.drop 1).takeWhile (fun c => c ≠ '>')))
  else
    let colorHex := (s.drop 8).take 8
    match parseTagF.children fuel (s.drop 17) with
    | .error e => .error e
    | .ok (children, rest) => .ok (.node (.color colorHex (hexToRgba colorHex) children), rest)

/-- The `while` loop inside `parseTag` that collects children until the
matching `</color>`: a non-`color` end tag is a dangling end tag, and
running out of input is the `Expected </color>, but got EOF!` error. -/
def parseTagF.children : Nat → List Char → Except ParseErr (NodeList × List Char)
| 0, _ => .error .outOfFuel
| _ + 1, [] => .error .eofInColor
| fuel + 1, c :: cs =>
  match parseTagF fuel (c :: cs) with
  | .error e => .error e
  | .ok (.endTag name, rest) =>
    if name = ['c', 'o', 'l', 'o', 'r'] then .ok (.nil, rest)
    else .error (.danglingEnd name)
  | .ok (.node n, rest) =>
    match parseTagF.children fuel rest with
    | .error e => .error e
    | .ok (ns, rest2) => .ok (.cons n ns, rest2)
end

/-- `ShellParser.parseAll`: parse nodes while input remains; an end tag
at the top level is a dangling end tag. -/
def parseAllF : Nat → List Char → Except ParseErr NodeList
| 0, _ => .error .outOfFuel
| _ + 1, [] => .ok .nil
| fuel + 1, c :: cs =>
  match parseTagF fuel (c :: cs) with
  | .error e => .error e
  | .ok (.endTag name, _) => .error (.danglingEnd name)
  | .ok (.node n, rest) =>
    match parseAllF fuel rest with
    | .error e => .error e
    | .ok ns => .ok (.cons n ns)

/-- `ShellParser.parse`.  The fuel `2 * |input| + 2` dominates the depth of
the recursion (each unit of nesting or each consumed character costs at
most two calls), which `parse_encodeDoc` below verifies on the whole
well-formed language. -/
def parse (input : String) : Except ParseErr NodeList :=
  parseAllF (2 * input.data.length + 2) input.data

/-! ## `removeColors` (`utils.ts`)

`removeColors` is `str.replaceAll(/<color=#[0-9A-F]{8}>/g, '').replaceAll('</color>', '')`.
A global replace scans left to right: at each position it either removes a
match and resumes after it, or keeps one character.  Each pass is embedded
as such a scanner, fueled by the input length (one unit per step, and every
step consumes at least one character). -/

/-- A character the regex class `[0-9A-F]` accepts. -/
def isHexDigitU (c : Char) : Bool :=
  ('0' ≤ c && c ≤ '9') || ('A' ≤ c && c ≤ 'F')

/-- Try to match the regex `<color=#[0-9A-F]{8}>` at the head of `l`
(the literal prefix, eight characters of `[0-9A-F]`, then `>`); on
success return the input after the 17-character match. -/
def matchOpenTag (l : List Char) : Option (List Char) :=
  if leadsWith openTagPart l then
    let hex := (l.drop 8).take 8
    if hex.length = 8 && hex.all isHexDigitU && leadsWith ['>'] (l.drop 16) then
      some (l.drop 17)
    else none
  else none

/-- Try to match the literal `</color>` at the head of `l`. -/
def matchCloseTag (l : List Char) : Option (List Char) :=
  if leadsWith closeTagPart l then some (l.drop 8) else none

/-- First pass of `removeColors`: delete every `<color=#XXXXXXXX>` match. -/
def pass1F : Nat → List Char → List Char
| 0, l => l
| _ + 1, [] => []
| fuel + 1, c :: cs =>
  match matchOpenTag (c :: cs) with
  | some rest => pass1F fuel rest
  | none => c :: pass1F fuel cs

/-- Second pass of `removeColors`: delete every `</color>` occurrence. -/
def pass2F : Nat → List Char → List Char
| 0, l => l
| _ + 1, [] => []
| fuel + 1, c :: cs =>
  match matchCloseTag (c :: cs) with
  | some rest => pass2F fuel rest
  | none => c :: pass2F fuel cs

/-- The open-tag pass at its sufficient fuel. -/
def pass1 (l : List Char) : List Char := pass1F l.length l

/-- The close-tag pass at its sufficient fuel. -/
def pass2 (l : List Char) : List Char := pass2F l.length l

/-- `removeColors` on character lists: both passes in source order. -/
def removeColorsData (l : List Char) : List Char := pass2 (pass1 l)

/-- `removeColors` from `utils.ts`. -/
def removeColors (s : String) : String := String.mk (removeColorsData s.data)

/-! ## Constants (`constants.ts`) -/

def SUCCESS_MESSAGE : String := "<color=#1EFF00FF>Success</color>"

def FAILURE_MESSAGE : String := "<color=#FF0000FF>Failure</color>"

def FLUSH_MESSAGE : String := "<color=#FFFFFFFF>>><color=#9B9B9BFF>flush</color></color>"

def ACTIVATING_HARDLINE_MESSAGE : String := "<color=#9B9B9BFF>-activating hardline-</color>"

def HARDLINE_ACTIVE_MESSAGE : String := "<color=#FF0000FF>-hardline active-</color>"

def HARDLINE_RECALIBRATING_MESSAGE : String :=
  "<color=#FF0000FF>:::TRUST COMMUNICATION:::</color> hardline is recalibrating."

def LESS_THAN_ENCODED : String := "\xc8"

def GREATER_THAN_ENCODED : String := "\xc9"

/-- Modelled from the spec: `handling.ts` imports `HARDLINE_DISCONNECTED_MESSAGE`
but the constant's definition is not among the provided sources; the spec and a
source remark name the `-hardline disconnected-` line, colored like the other
hardline control lines.  No theorem below depends on its exact value. -/
def HARDLINE_DISCONNECTED_MESSAGE : String := "<color=#FF0000FF>-hardline disconnected-</color>"

/-- The markup-stripped ("uncolored") rendering used by `#postProcess`
(`handling.ts`): strip color tags, then reverse the two angle-bracket
stand-in substitutions. -/
def uncoloredConvert (s : String) : String :=
  String.mk (replaceAllChar '\xc9' '>' (replaceAllChar '\xc8' '<' (removeColorsData s.data)))

/-! ## Session state and the log correlator (`handling.ts`, `part_001`)

The class state that `updateShell` reads and writes.  The repository holds
two revisions of `updateShell`: the one in `handling.ts` (here
`updateShell`) and the one in the companion revision (`part_001`, here
`updateShellP1`) which additionally maintains the hardline flag and
returns early on automatic flushes.  `placeShellFlag` draws a fresh random
UUID; the fresh flag value is passed in as an argument.  File reading and
keystroke injection are outside the pure model. -/

/-- `FlushReason` from `types.ts`. -/
inductive FlushReason where
| auto : FlushReason
| command : FlushReason
deriving DecidableEq, Repr

/-- The session fields of the `HmOog` class that the log correlator
touches.  (`isInHardline` exists only in the `part_001` revision; the
`handling.ts` revision of `updateShell` never reads or writes it.) -/
structure OogState where
  didInit : Bool
  lastShellFlag : Option String
  unprocessedLines : List String
  isInHardline : Bool
deriving DecidableEq, Repr

/-- `popAssert` from `utils.ts`: pop the last element; if it is not the
expected value, warn and push it back (popping an empty array yields
`undefined`, which is never pushed back). -/
def popAssert (arr : List String) (expected : String) : List String :=
  match arr.getLast? with
  | none => arr
  | some last => if last = expected then arr.dropLast else arr

/-- `removeOldLines`: locate the first line containing the live shell flag
and drop everything through three lines after it (`slice(lastLineIndex + 3)`).
With a flag set but not found, after `init` this is the fatal
`Couldn't merge shell histories!`; before `init`, JS computes
`slice(-1 + 3) = slice(2)`. -/
def removeOldLines (lastShellFlag : Option String) (didInit : Bool) (lines : List String) :
    Except String (List String) :=
  match lastShellFlag with
  | none => .ok lines
  | some flag =>
    match lines.findIdx? (fun line => jsIncludes line flag) with
    | some i => .ok (lines.drop (i + 3))
    | none =>
      if didInit then .error "Could not merge shell histories!"
      else .ok (lines.drop 2)

/-- `updateShell` as in `handling.ts` (the revision without hardline
handling): classify the new suffix by its last line, on a command flush
pop the sentinel and, if lines remain, the blank before it, then append to
the pending buffer and place a fresh shell flag — note that this revision
appends and re-flags on *both* flush reasons. -/
def updateShell (st : OogState) (lines : List String) (freshFlag : String) :
    Except String (FlushReason × OogState) :=
  match removeOldLines st.lastShellFlag st.didInit lines with
  | .error e => .error e
  | .ok newLines =>
    if newLines.isEmpty then .ok (.auto, st)
    else
      let flushReason := if newLines.getLast? = some FLUSH_MESSAGE
        then FlushReason.command else FlushReason.auto
      let newLines2 :=
        if flushReason = FlushReason.command then
          let n1 := popAssert newLines FLUSH_MESSAGE
          if n1.isEmpty then n1 else popAssert n1 ""
        else newLines
      .ok (flushReason,
        { st with
          unprocessedLines := st.unprocessedLines ++ newLines2,
          lastShellFlag := some freshFlag })

/-- `updateShell` as in `part_001`: additionally latches the hardline flag
from the control lines, returns early (without touching the buffer or the
shell flag) on automatic flushes, and filters the control lines out of a
command flush before popping the sentinel and blank. -/
def updateShellP1 (st : OogState) (lines : List String) (freshFlag : String) :
    Except String (FlushReason × OogState) :=
  match removeOldLines st.lastShellFlag st.didInit lines with
  | .error e => .error e
  | .ok newLines =>
    if newLines.isEmpty then .ok (.auto, st)
    else
      let flushReason := if newLines.getLast? = some FLUSH_MESSAGE
        then FlushReason.command else FlushReason.auto
      let st1 := if newLines.contains HARDLINE_ACTIVE_MESSAGE
        then { st with isInHardline := true } else st
      let st2 := if newLines.contains HARDLINE_DISCONNECTED_MESSAGE
        then { st1 with isInHardline := false } else st1
      if flushReason = FlushReason.auto then .ok (.auto, st2)
      else
        let filtered := newLines.filter (fun line =>
          line ≠ HARDLINE_ACTIVE_MESSAGE && line ≠ HARDLINE_DISCONNECTED_MESSAGE)
        let n1 := popAssert filtered FLUSH_MESSAGE
        let n2 := if n1.isEmpty then n1 else popAssert n1 ""
        .ok (.command,
          { st2 with
            unprocessedLines := st2.unprocessedLines ++ n2,
            lastShellFlag := some freshFlag })

/-! ## Echo matching inside `#postProcess` (`handling.ts`)

Both revisions of `#postProcess` locate the most recent line whose
markup-stripped form is `>>` followed by the command.  The later revision
keeps the echo line separately and returns the lines *after* it
(`slice(lastCommandIndex + 1)`); the first revision returns the
lines *from* it (`slice(lastCommandIndex)`).  Not finding the echo leaves
the lines untouched in both. -/

/-- Echo trimming of the later `#postProcess` (`handling.ts`, third
revision): returns the echoed command line (or `""`) and the remaining
lines after it. -/
def postProcessTrim (command : String) (lines : List String) : String × List String :=
  match findLastIdx? (fun line => removeColors line = ">>" ++ command) lines with
  | some i => (lines.getD i "", lines.drop (i + 1))
  | none => ("", lines)

/-- Echo trimming of the first-revision `#postProcess` (`handling.ts`
lines 176–210): `lines.slice(lastCommandIndex)` keeps the echo line. -/
def postProcessTrimV1 (command : String) (lines : List String) : List String :=
  match findLastIdx? (fun line => removeColors line = ">>" ++ command) lines with
  | some i => lines.drop i
  | none => lines

/-! ## `#getHardlineCooldown` (`handling.ts`, third revision)

`NO_HARDLINES_AVAILABLE_MESSAGE` and `HARDLINE_ALREADY_ACTIVE_MESSAGE` are
imported by `handling.ts` but their definitions are not among the provided
sources, so the function is parameterized by their values. -/

/-- The arithmetic tail of `#getHardlineCooldown`:
`cooldownMessage.substring(1).split(' ')[0].replace('s', '')`, then
`(parseInt(secondsString) + 1) * 1000`; `none` models a `NaN` result. -/
def cooldownOf (cooldownMessage : List Char) : Option Int :=
  let secondsString := removeFirst 's' ((cooldownMessage.drop 1).takeWhile (fun c => c ≠ ' '))
  (jsParseInt secondsString).map (fun n => (n + 1) * 1000)

/-- `#getHardlineCooldown`: `0` for an accepted activation (or no match at
all), `-1` for already-active, else the parsed cooldown from the
not-available / recalibrating line. -/
def getHardlineCooldown (noAvailMsg alreadyActiveMsg : String) (lines : List String) : Option Int :=
  if lines.contains ACTIVATING_HARDLINE_MESSAGE then some 0
  else
    let notAvailableIdx := findLastIdx? (fun line => jsIncludes line noAvailMsg) lines
    let recalibratingIdx := findLastIdx? (fun line => jsIncludes line HARDLINE_RECALIBRATING_MESSAGE) lines
    let alreadyActiveIdx := findLastIdx? (fun line => jsIncludes line alreadyActiveMsg) lines
    match alreadyActiveIdx with
    | some _ => some (-1)
    | none =>
      match notAvailableIdx with
      | some i => cooldownOf ((lines.getD i "").data.drop noAvailMsg.data.length)
      | none =>
        match recalibratingIdx with
        | some i => cooldownOf ((lines.getD i "").data.drop HARDLINE_RECALIBRATING_MESSAGE.data.length)
        | none => some 0

/-! ## Sending (`sendRaw` in `part_001`/second revision, `sendCommand` in
the third revision)

The payload of a successful send is the keystroke text
(`command + '\n'`); an `Except.error` is a `TypeError` thrown before any
keystroke is injected.  The native keystroke layer is assumed to accept. -/

/-- JS `String.trim` on character lists (whitespace from both ends;
`Char.isWhitespace` covers the whitespace characters relevant here). -/
def jsTrim (l : List Char) : List Char :=
  ((l.dropWhile Char.isWhitespace).reverse.dropWhile Char.isWhitespace).reverse

/-- `sendRaw`: validates, then injects `command + '\n'`. -/
def sendRaw (command : String) : Except String String :=
  if jsTrim command.data = [] then .error "Command cannot be empty!"
  else if containsList ['\n'] command.data then .error "Commands cannot contain newlines!"
  else .ok (command ++ "\n")

/-- The third revision's module-level `sendCommand` helper: injects
`command + '\n'` with no validation at all. -/
def sendCommand (command : String) : Except String String :=
  .ok (command ++ "\n")

/-! ## The retry loop of `run` (`handling.ts`, first revision, lines 49–90)

One iteration: send the command, attempt one correlated flush, and on a
null result consult the raced timeout flag, then the idempotency switch.
The environment is a finite trace of flush outcomes (one per iteration)
and an optional iteration index from which the raced `didReallyTimeout`
flag reads true. -/

/-- How one logical `run` call ended, with the number of times the command
text was sent. -/
inductive RunOutcome where
| completed : List String → Nat → RunOutcome
| timedOut : Nat → RunOutcome
| gaveUp : Nat → RunOutcome
| fuelOut : Nat → RunOutcome
deriving DecidableEq, Repr

/-- Number of sends recorded in an outcome. -/
def RunOutcome.sends : RunOutcome → Nat
| .completed _ n => n
| .timedOut n => n
| .gaveUp n => n
| .fuelOut n => n

/-- Did the loop return the "not idempotent, giving up" null result? -/
def RunOutcome.isGaveUp : RunOutcome → Bool
| .gaveUp _ => true
| _ => false

/-- Does the raced timeout flag read true at iteration `i`?  `none` models
`timeout = 0`, where no timeout is ever armed. -/
def timeoutFired (timeoutAt : Option Nat) (i : Nat) : Bool :=
  match timeoutAt with
  | none => false
  | some k => k ≤ i

/-- The `while (data === null)` loop of `run`: `flushes` lists the outcome
`#flush` would produce at each successive iteration. -/
def runLoop (idempotent : Bool) (timeoutAt : Option Nat) :
    List (Option (List String)) → Nat → Nat → RunOutcome
| [], _, sends => .fuelOut sends
| o :: rest, i, sends =>
  match o with
  | some data => .completed data (sends + 1)
  | none =>
    if timeoutFired timeoutAt i then .timedOut (sends + 1)
    else if !idempotent then .gaveUp (sends + 1)
    else runLoop idempotent timeoutAt rest (i + 1) (sends + 1)

/-- One logical `run` call against an environment trace. -/
def run (idempotent : Bool) (timeoutAt : Option Nat)
    (flushes : List (Option (List String))) : RunOutcome :=
  runLoop idempotent timeoutAt flushes 0 0

/-! ## The markup-preserving renderer and the well-formed markup language

The spec's Output Renderer has a markup-preserving variant ("identity
re-serialization"); no such tree renderer appears among the provided
sources (the colored view in `#postProcess` reuses the raw text), so it is
modelled from the spec.  Well-formed markup strings are described
generatively: a document is a sequence of non-empty text runs (no raw
angle brackets, which the host encodes as stand-ins) and arbitrarily
nested `<color=#RRGGBBAA>...</color>` tags, with no two adjacent text
runs (a run is maximal). -/

mutual
/-- Modelled from the spec: the markup-preserving renderer — a text node
emits its text, a color node re-emits `<color=#` + hex + `>`, its rendered
children, and `</color>`. -/
def renderNode : Node → List Char
| .text t => t
| .color hex _ children => openTagPart ++ hex ++ '>' :: (renderNodes children ++ closeTagPart)
/-- Modelled from the spec: render a node sequence by concatenation. -/
def renderNodes : NodeList → List Char
| .nil => []
| .cons n rest => renderNode n ++ renderNodes rest
end

/-- A well-formed markup document: `mnil` is the empty document,
`mtext t rest` a text run followed by `rest`, and `mtag hex body rest` a
color tag with body `body` followed by `rest`. -/
inductive MDoc where
| mnil : MDoc
| mtext : List Char → MDoc → MDoc
| mtag : List Char → MDoc → MDoc → MDoc
deriving DecidableEq, Repr

/-- The markup string a document denotes. -/
def encodeDoc : MDoc → List Char
| .mnil => []
| .mtext t rest => t ++ encodeDoc rest
| .mtag hex body rest =>
  openTagPart ++ hex ++ '>' :: (encodeDoc body ++ closeTagPart ++ encodeDoc rest)

/-- Does the document start with a text run? -/
def startsWithTextItem : MDoc → Bool
| .mtext _ _ => true
| _ => false

/-- A character allowed in well-formed text: raw angle brackets cannot
appear inside markup (the host encodes them as stand-ins). -/
def okTextChar (c : Char) : Bool := c ≠ '<' && c ≠ '>'

/-- Well-formedness: text runs are non-empty, contain no raw angle
brackets and are maximal (never adjacent); hex encodings are eight
characters from `[0-9A-F]`. -/
def docOk : MDoc → Bool
| .mnil => true
| .mtext t rest => !t.isEmpty && t.all okTextChar && !startsWithTextItem rest && docOk rest
| .mtag hex body rest => decide (hex.length = 8) && hex.all isHexDigitU && docOk body && docOk rest

/-- No text run of the document contains a stand-in character. -/
def noStandIns : MDoc → Bool
| .mnil => true
| .mtext t rest => t.all (fun c => !isStandIn c) && noStandIns rest
| .mtag _ body rest => noStandIns body && noStandIns rest

/-- The parse tree a well-formed document parses to. -/
def toNodes : MDoc → NodeList
| .mnil => .nil
| .mtext t rest => .cons (.text (t.map replaceChar)) (toNodes rest)
| .mtag hex body rest => .cons (.color hex (hexToRgba hex) (toNodes body)) (toNodes rest)

/-- What the first `removeColors` pass leaves of an encoded document:
text and the `</color>` closers. -/
def eraseOpens : MDoc → List Char
| .mnil => []
| .mtext t rest => t ++ eraseOpens rest
| .mtag _ body rest => eraseOpens body ++ closeTagPart ++ eraseOpens rest

/-- The bare text of a document, all tag syntax gone. -/
def plainText : MDoc → List Char
| .mnil => []
| .mtext t rest => t ++ plainText rest
| .mtag _ body rest => plainText body ++ plainText rest

mutual
/-- No stand-in character occurs in the node's text (recursively). -/
def nodeNoStandIn : Node → Bool
| .text t => t.all (fun c => !isStandIn c)
| .color _ _ children => nodesNoStandIn children
/-- `nodeNoStandIn` over a node sequence. -/
def nodesNoStandIn : NodeList → Bool
| .nil => true
| .cons n rest => nodeNoStandIn n && nodesNoStandIn rest
end

/-! # Theorems -/

/-! ## C3, C5, C9 — concrete behaviour of the parser, the echo trimming
and the senders -/

/-- C3: `parse` reports a fatal error and returns no tree in each of the
four cases: an end tag with no corresponding start tag; an end tag whose
name is not `color` (inside an open color tag); a start tag of an
unrecognized form; and an unterminated color tag at end of input. -/
theorem c3_parse_errors_are_fatal :
    parse "x</color>y" = .error (.danglingEnd ['c', 'o', 'l', 'o', 'r']) ∧
    parse "<color=#AABBCCDD>x</foo>" = .error (.danglingEnd ['f', 'o', 'o']) ∧
    parse "<b>hello" = .error (.unknownTag ['b']) ∧
    parse "<color=#FF0000FF>text" = .error .eofInColor := by
  refine ⟨by decide, by decide, by decide, by decide⟩

/-- C5 (counterexample): the first-revision `#postProcess`
(`handling.ts` lines 176–210) keeps the echo line (`slice(lastCommandIndex)`):
on the claim's input it returns `[">>foo", "result1", "result2"]`, not
`["result1", "result2"]`. -/
theorem c5_v1_keeps_echo_line :
    postProcessTrimV1 "foo" ["noise", ">>foo", "result1", "result2"]
      = [">>foo", "result1", "result2"] ∧
    ([">>foo", "result1", "result2"] : List String) ≠ ["result1", "result2"] := by
  refine ⟨by decide, by decide⟩

/-- C5 (amended): in the later `#postProcess` (`handling.ts` lines
701–746) the echo line and everything before it are discarded: the claim's
input yields exactly `["result1", "result2"]`; with a duplicated echo the
most recent one is taken; and a missing echo is non-fatal, leaving the
lines untouched. -/
theorem c5_echo_matching :
    postProcessTrim "foo" ["noise", ">>foo", "result1", "result2"]
      = (">>foo", ["result1", "result2"]) ∧
    postProcessTrim "foo" [">>foo", "x", ">>foo", "y"] = (">>foo", ["y"]) ∧
    postProcessTrim "bar" ["noise", "data"] = ("", ["noise", "data"]) := by
  refine ⟨by decide, by decide, by decide⟩

/-- C9 (counterexample): the third revision sends through the module-level
`sendCommand` helper, which performs no validation: an empty command and a
command with an embedded line break are both injected rather than
rejected. -/
theorem c9_sendCommand_does_not_validate :
    sendCommand "" = .ok "\n" ∧ sendCommand "a\nb" = .ok "a\nb\n" := by
  refine ⟨by decide, by decide⟩

/-- C9 (amended): `sendRaw` (second revision / `part_001`) throws before
any keystrokes are injected whenever the command is empty or
whitespace-only, or contains an embedded line break; every other command
is injected as `command + '\n'`. -/
theorem c9_sendRaw_validates (command : String) :
    (jsTrim command.data = [] ∨ containsList ['\n'] command.data = true →
      ∃ e, sendRaw command = .error e) ∧
    (jsTrim command.data ≠ [] → containsList ['\n'] command.data = false →
      sendRaw command = .ok (command ++ "\n")) := by
  constructor
  · intro h
    unfold sendRaw
    rcases h with h | h
    · exact ⟨"Command cannot be empty!", by simp [h]⟩
    · by_cases ht : jsTrim command.data = []
      · exact ⟨"Command cannot be empty!", by simp [ht]⟩
      · exact ⟨"Commands cannot contain newlines!", by simp [ht, h]⟩
  · intro ht hn
    unfold sendRaw
    simp [ht, hn]

/-- Witness for `c9_sendRaw_validates` at the commands `" "` and `"ls"`. -/
theorem c9_sendRaw_validates_witness :
    (∃ e, sendRaw " " = .error e) ∧ sendRaw "ls" = .ok "ls\n" :=
  ⟨(c9_sendRaw_validates " ").1 (Or.inl (by decide)),
   (c9_sendRaw_validates "ls").2 (by decide) (by decide)⟩

/-! ## C6 — retry policy of `run` -/

/-- With `idempotent = true` the loop never takes the giving-up branch:
it keeps retrying until a result, the raced timeout, or the end of the
environment trace. -/
theorem runLoop_true_never_givesUp (timeoutAt : Option Nat) :
    ∀ (flushes : List (Option (List String))) (i sends : Nat),
      (runLoop true timeoutAt flushes i sends).isGaveUp = false := by
  intro flushes
  induction flushes with
  | nil => intro i sends; rfl
  | cons o rest ih =>
    intro i sends
    cases o with
    | some data => rfl
    | none =>
      by_cases h : timeoutFired timeoutAt i = true
      · simp [runLoop, h, RunOutcome.isGaveUp]
      · simp only [runLoop, Bool.not_eq_true] at h
        simp [runLoop, h, ih]

/-- With no timeout armed and every flush failing, the idempotent loop
sends once per environment step: it really retries for the whole trace. -/
theorem runLoop_true_retries (n : Nat) :
    ∀ (i sends : Nat),
      (runLoop true none (List.replicate n none) i sends).sends = sends + n := by
  induction n with
  | zero => intro i sends; rfl
  | succ m ih =>
    intro i sends
    simp only [List.replicate_succ]
    rw [show runLoop true none (none :: List.replicate m none) i sends
        = runLoop true none (List.replicate m none) (i + 1) (sends + 1) from by
      simp [runLoop, timeoutFired]]
    rw [ih (i + 1) (sends + 1)]
    omega

/-- C6: with `idempotent = false` one logical `run` call sends the command
text at most once over any environment (even when correlation fails every
time); with `idempotent = true` the call never gives up short of a result
or the timeout, and with no timeout armed it retries (one send per step)
through the entire failing trace. -/
theorem c6_run_retry_policy (timeoutAt : Option Nat)
    (flushes : List (Option (List String))) (n : Nat) :
    (run false timeoutAt flushes).sends ≤ 1 ∧
    (run true timeoutAt flushes).isGaveUp = false ∧
    (run true none (List.replicate n none)).sends = n := by
  refine ⟨?_, runLoop_true_never_givesUp timeoutAt flushes 0 0, ?_⟩
  · cases flushes with
    | nil => exact Nat.zero_le 1
    | cons o rest =>
      cases o with
      | some data => exact Nat.le_refl 1
      | none =>
        by_cases h : timeoutFired timeoutAt 0 = true
        · simp [run, runLoop, h, RunOutcome.sends]
        · simp only [Bool.not_eq_true] at h
          simp [run, runLoop, h, RunOutcome.sends]
  · have := runLoop_true_retries n 0 0
    simpa [run] using this

/-! ## C4 — the marker on automatic flushes -/

/-- C4 (amended, `part_001` revision): whenever `updateShell` of `part_001`
reports an automatic flush, the stored shell flag (the session marker) is
exactly what it was before the call — it is neither consumed nor
advanced.  (The `handling.ts` revision violates this; see
`c4_handling_updateShell_advances_marker`.) -/
theorem c4_auto_flush_keeps_marker (st : OogState) (lines : List String)
    (freshFlag : String) (st' : OogState)
    (h : updateShellP1 st lines freshFlag = .ok (.auto, st')) :
    st'.lastShellFlag = st.lastShellFlag := by
  unfold updateShellP1 at h
  cases hro : removeOldLines st.lastShellFlag st.didInit lines with
  | error e => rw [hro] at h; exact absurd h (by simp)
  | ok newLines =>
    rw [hro] at h
    by_cases hempty : newLines.isEmpty
    · simp [hempty] at h
      rw [← h]
    · simp only [hempty, if_false, Bool.false_eq_true] at h
      by_cases hauto : (if newLines.getLast? = some FLUSH_MESSAGE
          then FlushReason.command else FlushReason.auto) = FlushReason.auto
      · simp only [hauto, if_true, reduceIte] at h
        rw [show st' = (if newLines.contains HARDLINE_DISCONNECTED_MESSAGE = true then
            { (if newLines.contains HARDLINE_ACTIVE_MESSAGE = true then
                { st with isInHardline := true } else st) with isInHardline := false }
            else (if newLines.contains HARDLINE_ACTIVE_MESSAGE = true then
                { st with isInHardline := true } else st)) from by
          split at h <;> split at h <;> simp_all]
        split <;> split <;> rfl
      · simp only [hauto, reduceIte] at h
        exact absurd h (by simp)

/-- Witness for `c4_auto_flush_keeps_marker`: a concrete automatic flush
(new lines exist but the last one is not the flush sentinel). -/
theorem c4_auto_flush_keeps_marker_witness :
    (OogState.mk true (some "F") [] false).lastShellFlag = some "F" := by
  rw [← c4_auto_flush_keeps_marker ⟨true, some "F", [], false⟩
    [">># F", "s1", "s2", "A"] "G" ⟨true, some "F", [], false⟩ (by decide)]

/-- C4 (counterexample, `handling.ts` revision): the `updateShell` of
`handling.ts` classifies the same log as an automatic flush, yet appends
the new lines to the buffer and places a fresh marker — the stored marker
state changes. -/
theorem c4_handling_updateShell_advances_marker :
    updateShell ⟨true, some "F", [], false⟩ [">># F", "s1", "s2", "A"] "G"
      = .ok (.auto, ⟨true, some "G", ["A"], false⟩) ∧
    (OogState.mk true (some "G") ["A"] false).lastShellFlag
      ≠ (OogState.mk true (some "F") [] false).lastShellFlag := by
  refine ⟨by decide, by decide⟩

/-! ## C1 — command-flush extraction through the marker -/

/-- `List.findIdx?` locates the first satisfying element after a block of
non-satisfying ones. -/
theorem findIdx?_first {α : Type} (p : α → Bool) (x : α) (rest : List α) :
    ∀ (pre : List α) (i : Nat), (∀ l ∈ pre, p l = false) → p x = true →
      List.findIdx? p (pre ++ x :: rest) i = some (i + pre.length) := by
  intro pre
  induction pre with
  | nil =>
    intro i _ hx
    simp [List.findIdx?_cons, hx]
  | cons a pre' ih =>
    intro i hpre hx
    have ha : p a = false := hpre a (by simp)
    have hrec := ih (i + 1) (fun l hl => hpre l (by simp [hl])) hx
    simp only [List.cons_append, List.findIdx?_cons, ha, Bool.false_eq_true, if_false]
    rw [hrec]
    congr 1
    simp only [List.length_cons]
    omega

/-- C1 (amended): with the live marker `flag` first occurring on the line
`marker`, and the log continuing with the two host-inserted lines `h1`,
`h2` and then `A`, `B` and the flush sentinel, `updateShell` returns the
lines `[A, B]` classified as a command-triggered flush: the sentinel line
is stripped (with `B` defensively kept, not being the expected blank) and
a fresh marker is placed. -/
theorem c1_command_flush (pre : List String) (marker h1 h2 A B : String)
    (flag freshFlag : String) (buf : List String) (didInit hl : Bool)
    (hpre : ∀ l ∈ pre, jsIncludes l flag = false)
    (hmark : jsIncludes marker flag = true)
    (hB : B ≠ "") :
    updateShell ⟨didInit, some flag, buf, hl⟩
      (pre ++ marker :: h1 :: h2 :: A :: B :: [FLUSH_MESSAGE]) freshFlag
    = .ok (.command, ⟨didInit, some freshFlag, buf ++ [A, B], hl⟩) := by
  have hfind := findIdx?_first (fun line => jsIncludes line flag) marker
    (h1 :: h2 :: A :: B :: [FLUSH_MESSAGE]) pre 0 hpre hmark
  unfold updateShell
  simp only [removeOldLines]
  rw [hfind]
  simp only [Nat.zero_add]
  rw [List.drop_append 3]
  simp [popAssert, hB]

/-- Witness for `c1_command_flush` at a concrete log. -/
theorem c1_command_flush_witness :
    updateShell ⟨true, some "F", [], false⟩
      (["old"] ++ ">># F" :: "h1" :: "h2" :: "A" :: "B" :: [FLUSH_MESSAGE]) "G"
    = .ok (.command, ⟨true, some "G", [] ++ ["A", "B"], false⟩) :=
  c1_command_flush ["old"] ">># F" "h1" "h2" "A" "B" "F" "G" [] true false
    (by decide) (by decide) (by decide)

/-- C1 (counterexample): with the marker line followed *immediately* by
`A`, `B` and the sentinel, the three-line skip of `removeOldLines`
(`slice(lastLineIndex + 3)`) swallows `A` and `B`: the call returns a
command flush with *no* lines (not `[A, B]`). -/
theorem c1_immediate_layout_loses_lines :
    updateShell ⟨true, some "F", [], false⟩ [">># F", "A", "B", FLUSH_MESSAGE] "G"
      = .ok (.command, ⟨true, some "G", [], false⟩) ∧
    ([] : List String) ≠ ["A", "B"] := by
  refine ⟨by decide, by decide⟩

/-! ## C7 — hardline cooldown parsing -/

/-- C7: on a recognized recalibration rejection whose text ends in
`12s left`, `#getHardlineCooldown` returns `(12 + 1) * 1000` milliseconds —
the parsed seconds value plus one second of safety margin, in
milliseconds.  The two sentinel constants whose definitions are not among
the sources are arbitrary, provided the line does not contain them. -/
theorem c7_hardline_cooldown (noAvailMsg alreadyActiveMsg : String)
    (h1 : jsIncludes (HARDLINE_RECALIBRATING_MESSAGE ++ " 12s left") noAvailMsg = false)
    (h2 : jsIncludes (HARDLINE_RECALIBRATING_MESSAGE ++ " 12s left") alreadyActiveMsg = false) :
    getHardlineCooldown noAvailMsg alreadyActiveMsg
      [HARDLINE_RECALIBRATING_MESSAGE ++ " 12s left"] = some ((12 + 1) * 1000) := by
  have hact : ([HARDLINE_RECALIBRATING_MESSAGE ++ " 12s left"].contains
      ACTIVATING_HARDLINE_MESSAGE) = false := by decide
  have hrec : jsIncludes (HARDLINE_RECALIBRATING_MESSAGE ++ " 12s left")
      HARDLINE_RECALIBRATING_MESSAGE = true := by decide
  unfold getHardlineCooldown
  simp only [hact, Bool.false_eq_true, if_false, findLastIdx?, h1, h2, hrec, if_true, reduceIte]
  decide

/-- Witness for `c7_hardline_cooldown` with concrete values for the two
missing constants (not contained in the line). -/
theorem c7_hardline_cooldown_witness :
    getHardlineCooldown "@@NOAVAIL@@" "@@ALREADY@@"
      [HARDLINE_RECALIBRATING_MESSAGE ++ " 12s left"] = some 13000 := by
  have h := c7_hardline_cooldown "@@NOAVAIL@@" "@@ALREADY@@" (by decide) (by decide)
  simpa using h

/-! ## C10 — no stand-in characters in parsed text -/

/-- The substitution table never produces a stand-in character. -/
theorem replaceChar_not_standIn (c : Char) : isStandIn (replaceChar c) = false := by
  unfold replaceChar
  split_ifs with h1 h2 h3
  · decide
  · decide
  · decide
  · simp [isStandIn, h1, h2, h3]

/-- Every character `parseText` emits has been through the substitution
table, so none is a stand-in. -/
theorem parseTextRun_no_standIn (s : List Char) :
    ((parseTextRun s).1).all (fun c => !isStandIn c) = true := by
  induction s with
  | nil => rfl
  | cons c cs ih =>
    unfold parseTextRun
    by_cases h : c = '<'
    · simp [h]
    · simp [h, replaceChar_not_standIn c, ih]

/-- Fuel induction for C10: any node `parseTag` returns, and any node list
the children loop returns, is free of stand-in characters. -/
theorem parseTagF_no_standIn : ∀ fuel : Nat,
    (∀ s pn rest, parseTagF fuel s = .ok (pn, rest) →
      ∀ n, pn = .node n → nodeNoStandIn n = true) ∧
    (∀ s ns rest, parseTagF.children fuel s = .ok (ns, rest) →
      nodesNoStandIn ns = true) := by
  intro fuel
  induction fuel with
  | zero =>
    constructor
    · intro s pn rest h
      exact absurd h (by simp [parseTagF])
    · intro s ns rest h
      exact absurd h (by simp [parseTagF.children])
  | succ f ih =>
    constructor
    · intro s pn rest h n hn
      subst hn
      unfold parseTagF at h
      by_cases h1 : leadsWith ['<'] s
      · simp only [h1, Bool.not_true, Bool.false_eq_true, if_false] at h
        by_cases h2 : leadsWith ['<', '/'] s
        · simp only [h2, if_true, reduceIte] at h
          unfold parseEndTag at h
          dsimp only at h
          split at h
          · exact absurd h (by simp)
          · simp only [Except.ok.injEq, Prod.mk.injEq] at h
            exact absurd h.1 (by simp)
        · simp only [h2, Bool.false_eq_true, if_false, reduceIte] at h
          by_cases h3 : leadsWith openTagPart s
          · simp only [h3, Bool.not_true, Bool.false_eq_true, if_false, reduceIte] at h
            cases hc : parseTagF.children f (s.drop 17) with
            | error e => rw [hc] at h; exact absurd h (by simp)
            | ok p =>
              rw [hc] at h
              obtain ⟨children, rest2⟩ := p
              dsimp only at h
              simp only [Except.ok.injEq, Prod.mk.injEq] at h
              have hnode : Node.color ((s.drop 8).take 8)
                  (hexToRgba ((s.drop 8).take 8)) children = n := by
                have := h.1
                cases this; rfl
              rw [← hnode]
              show nodesNoStandIn children = true
              exact ih.2 (s.drop 17) children rest2 hc
          · simp [h3] at h
      · simp only [h1, Bool.not_false, if_true, reduceIte, Except.ok.injEq, Prod.mk.injEq] at h
        have htext : Node.text (parseTextRun s).1 = n := by
          have := h.1
          cases this; rfl
        rw [← htext]
        show ((parseTextRun s).1).all (fun c => !isStandIn c) = true
        exact parseTextRun_no_standIn s
    · intro s ns rest h
      match s with
      | [] => exact absurd h (by simp [parseTagF.children])
      | c :: cs =>
        unfold parseTagF.children at h
        cases ht : parseTagF f (c :: cs) with
        | error e => rw [ht] at h; exact absurd h (by simp)
        | ok p =>
          rw [ht] at h
          obtain ⟨pn, rest1⟩ := p
          cases pn with
          | endTag name =>
            dsimp only at h
            by_cases hname : name = ['c', 'o', 'l', 'o', 'r']
            · simp only [hname, if_true, reduceIte, Except.ok.injEq, Prod.mk.injEq] at h
              rw [← h.1]
              rfl
            · simp [hname] at h
          | node n =>
            dsimp only at h
            cases hrec : parseTagF.children f rest1 with
            | error e => rw [hrec] at h; exact absurd h (by simp)
            | ok q =>
              rw [hrec] at h
              obtain ⟨ns2, rest2⟩ := q
              dsimp only at h
              simp only [Except.ok.injEq, Prod.mk.injEq] at h
              rw [← h.1]
              show (nodeNoStandIn n && nodesNoStandIn ns2) = true
              rw [(ih.1 (c :: cs) (.node n) rest1 ht n rfl :),
                  ih.2 rest1 ns2 rest2 hrec]
              rfl

/-- `parseAll` at any fuel only returns stand-in-free node lists. -/
theorem parseAllF_no_standIn : ∀ (fuel : Nat) (s : List Char) (ns : NodeList),
    parseAllF fuel s = .ok ns → nodesNoStandIn ns = true := by
  intro fuel
  induction fuel with
  | zero =>
    intro s ns h
    exact absurd h (by simp [parseAllF])
  | succ f ih =>
    intro s ns h
    match s with
    | [] =>
      unfold parseAllF at h
      simp only [Except.ok.injEq] at h
      rw [← h]
      rfl
    | c :: cs =>
      unfold parseAllF at h
      cases ht : parseTagF f (c :: cs) with
      | error e => rw [ht] at h; exact absurd h (by simp)
      | ok p =>
        rw [ht] at h
        obtain ⟨pn, rest⟩ := p
        cases pn with
        | endTag name => exact absurd h (by simp)
        | node n =>
          dsimp only at h
          cases hrec : parseAllF f rest with
          | error e => rw [hrec] at h; exact absurd h (by simp)
          | ok ns2 =>
            rw [hrec] at h
            dsimp only at h
            simp only [Except.ok.injEq] at h
            rw [← h]
            show (nodeNoStandIn n && nodesNoStandIn ns2) = true
            rw [((parseTagF_no_standIn f).1 (c :: cs) (.node n) rest ht n rfl :),
                ih rest ns2 hrec]
            rfl

/-- C10: every text node in the output of `parse` is free of the three
stand-in characters `\xab`, `\xc8`, `\xc9` — `parseText` substitutes them
during parsing, so consumers of the parsed tree never observe one. -/
theorem c10_parse_output_has_no_standins (s : String) (ns : NodeList)
    (h : parse s = .ok ns) : nodesNoStandIn ns = true :=
  parseAllF_no_standIn _ _ ns h

/-- Witness for `c10_parse_output_has_no_standins` on an input made of all
three stand-ins plus a color tag. -/
theorem c10_parse_output_has_no_standins_witness :
    nodesNoStandIn (.cons (.text ['<', 'x', '>', '\x60'])
      (.cons (.color ['F', 'F', '0', '0', '0', '0', 'F', 'F']
        [some 255, some 0, some 0, some 255] (.cons (.text ['\x60']) .nil)) .nil)) = true :=
  c10_parse_output_has_no_standins "\xc8x\xc9\xab<color=#FF0000FF>\xab</color>" _ (by decide)

/-! ## C2 — round-tripping well-formed markup

The compositional parse lemmas follow: a step equation for each parser
function, a lemma for a text run, then a bundled strong induction over the
document structure with explicit fuel bounds (each consumed character or
nesting level costs at most two units of fuel). -/

/-- Splitting off an exact-length block: drop. -/
theorem drop_exact {α : Type} (l₁ l₂ : List α) : (l₁ ++ l₂).drop l₁.length = l₂ := by
  simpa using @List.drop_append _ l₁ l₂ 0

/-- Splitting off an exact-length block: take. -/
theorem take_exact {α : Type} (l₁ l₂ : List α) : (l₁ ++ l₂).take l₁.length = l₁ := by
  simpa using @List.take_append _ l₁ l₂ 0

/-- A list starts with itself. -/
theorem leadsWith_append_self (p q : List Char) : leadsWith p (p ++ q) = true := by
  induction p with
  | nil => rfl
  | cons c cs ih => simp [leadsWith, ih]

/-- `parseText` consumes a whole `<`-free run and stops at the following
`<` (or at the end of input). -/
theorem parseTextRun_append (t extra : List Char) (ht : ∀ c ∈ t, c ≠ '<')
    (hextra : extra = [] ∨ ∃ e, extra = '<' :: e) :
    parseTextRun (t ++ extra) = (t.map replaceChar, extra) := by
  induction t with
  | nil =>
    rcases hextra with h | ⟨e, h⟩
    · subst h; rfl
    · subst h; rfl
  | cons c t' ih =>
    have hc : c ≠ '<' := ht c (by simp)
    have ih' := ih (fun x hx => ht x (by simp [hx]))
    simp only [List.cons_append, parseTextRun, hc, if_false, List.append_eq, ih',
      List.map_cons, reduceIte]

/-- One step of `parseAll` on a non-empty input. -/
theorem parseAllF_cons_eq (f : Nat) (s : List Char) (hs : s ≠ []) :
    parseAllF (f + 1) s = (match parseTagF f s with
      | .error e => .error e
      | .ok (.endTag name, _) => .error (.danglingEnd name)
      | .ok (.node n, rest) => (match parseAllF f rest with
          | .error e => .error e
          | .ok ns => .ok (.cons n ns))) := by
  obtain ⟨c, cs, rfl⟩ := List.exists_cons_of_ne_nil hs
  rfl

/-- One step of the children loop on a non-empty input. -/
theorem parseChildrenF_cons_eq (f : Nat) (s : List Char) (hs : s ≠ []) :
    parseTagF.children (f + 1) s = (match parseTagF f s with
      | .error e => .error e
      | .ok (.endTag name, rest) =>
        if name = ['c', 'o', 'l', 'o', 'r'] then .ok (.nil, rest)
        else .error (.danglingEnd name)
      | .ok (.node n, rest) => (match parseTagF.children f rest with
          | .error e => .error e
          | .ok (ns, rest2) => .ok (.cons n ns, rest2))) := by
  obtain ⟨c, cs, rfl⟩ := List.exists_cons_of_ne_nil hs
  rfl

/-- `parseTag` on a non-empty `<`-free text run followed by `[]` or a
tag: one text node, substitutions applied, nothing else consumed. -/
theorem parseTagF_text (t extra : List Char) (f : Nat) (ht : t ≠ [])
    (hok : ∀ c ∈ t, okTextChar c = true)
    (hextra : extra = [] ∨ ∃ e, extra = '<' :: e) :
    parseTagF (f + 1) (t ++ extra) = .ok (.node (.text (t.map replaceChar)), extra) := by
  obtain ⟨c, t', rfl⟩ := List.exists_cons_of_ne_nil ht
  have hc : c ≠ '<' := by
    have := hok c (by simp)
    simp only [okTextChar, Bool.and_eq_true, decide_eq_true_eq] at this
    exact this.1
  have hnolt : ∀ x ∈ c :: t', x ≠ '<' := by
    intro x hx
    have := hok x hx
    simp only [okTextChar, Bool.and_eq_true, decide_eq_true_eq] at this
    exact this.1
  have hrun : parseTextRun (c :: (t' ++ extra)) = ((c :: t').map replaceChar, extra) := by
    have := parseTextRun_append (c :: t') extra hnolt hextra
    simpa using this
  have hlw : leadsWith ['<'] (c :: (t' ++ extra)) = false := by
    simp [leadsWith, Ne.symm hc]
  unfold parseTagF
  simp only [List.cons_append, hlw, Bool.not_false, if_true, reduceIte, hrun]

/-- `parseTag` on an encoded color tag start: consumes `<color=#`, the 8
hex characters and the `>`, then defers to the children loop. -/
theorem parseTagF_tag_step (hex z : List Char) (f : Nat) (h8 : hex.length = 8)
    (ns : NodeList) (rest : List Char)
    (hch : parseTagF.children f z = .ok (ns, rest)) :
    parseTagF (f + 1) (openTagPart ++ hex ++ '>' :: z)
      = .ok (.node (.color hex (hexToRgba hex) ns), rest) := by
  have hlw1 : leadsWith ['<'] (openTagPart ++ hex ++ '>' :: z) = true := by
    simp [leadsWith, openTagPart]
  have hlw2 : leadsWith ['<', '/'] (openTagPart ++ hex ++ '>' :: z) = false := by
    simp [leadsWith, openTagPart]
  have hlw3 : leadsWith openTagPart (openTagPart ++ hex ++ '>' :: z) = true :=
    leadsWith_append_self _ _
  have hdrop8 : (openTagPart ++ hex ++ '>' :: z).drop 8 = hex ++ '>' :: z :=
    drop_exact openTagPart _
  have htake : (hex ++ '>' :: z).take 8 = hex := by
    rw [← h8]
    exact take_exact hex _
  have hdrop17 : (openTagPart ++ hex ++ '>' :: z).drop 17 = z := by
    have h1 : (openTagPart ++ hex ++ '>' :: z).drop 17 = (hex ++ '>' :: z).drop 9 := by
      rw [show (17 : Nat) = openTagPart.length + 9 from rfl]
      exact List.drop_append 9
    rw [h1, show (9 : Nat) = hex.length + 1 from by omega, List.drop_append 1]
    simp
  unfold parseTagF
  simp only [hlw1, hlw2, hlw3, Bool.not_true, Bool.false_eq_true, if_false, reduceIte,
    hdrop8, htake, hdrop17, hch]

/-- An encoded document that does not start with a text run, followed by a
tail that is empty or starts with `<`, is empty or starts with `<`. -/
theorem encodeDoc_shape (d : MDoc) (h : startsWithTextItem d = false) (tail : List Char)
    (htail : tail = [] ∨ ∃ e, tail = '<' :: e) :
    encodeDoc d ++ tail = [] ∨ ∃ e, encodeDoc d ++ tail = '<' :: e := by
  cases d with
  | mnil =>
    simpa [encodeDoc] using htail
  | mtext t rest => simp [startsWithTextItem] at h
  | mtag hex body rest =>
    right
    exact ⟨'c' :: 'o' :: 'l' :: 'o' :: 'r' :: '=' :: '#' ::
      (hex ++ '>' :: (encodeDoc body ++ closeTagPart ++ encodeDoc rest) ++ tail),
      by simp [encodeDoc, openTagPart]⟩

/-- A list's `sizeOf` is at least one. -/
theorem sizeOf_list_pos {α : Type} [SizeOf α] (l : List α) : 1 ≤ sizeOf l := by
  cases l <;> simp_arith

/-- A document's `sizeOf` is at least one. -/
theorem sizeOf_mdoc_pos (d : MDoc) : 1 ≤ sizeOf d := by
  cases d <;> simp_arith

/-- `parseTag` on `</color>` followed by anything: the end tag named
`color`, with exactly the eight characters consumed. -/
theorem parseTagF_close (extra : List Char) (f : Nat) :
    parseTagF (f + 1) (closeTagPart ++ extra)
      = .ok (.endTag ['c', 'o', 'l', 'o', 'r'], extra) := by
  have hlw1 : leadsWith ['<'] (closeTagPart ++ extra) = true := by
    simp [leadsWith, closeTagPart]
  have hlw2 : leadsWith ['<', '/'] (closeTagPart ++ extra) = true := by
    simp [leadsWith, closeTagPart]
  have htake7 : (closeTagPart ++ extra).take 7 = ['<', '/', 'c', 'o', 'l', 'o', 'r'] := by
    rw [show closeTagPart ++ extra
        = ['<', '/', 'c', 'o', 'l', 'o', 'r'] ++ ('>' :: extra) from by simp [closeTagPart]]
    simpa using take_exact (['<', '/', 'c', 'o', 'l', 'o', 'r'] : List Char) ('>' :: extra)
  have hdrop8 : (closeTagPart ++ extra).drop 8 = extra := drop_exact closeTagPart extra
  have hend : parseEndTag (closeTagPart ++ extra)
      = .ok (.endTag ['c', 'o', 'l', 'o', 'r'], extra) := by
    unfold parseEndTag
    have htw : ((closeTagPart ++ extra).takeWhile (fun c => (c ≠ '>' : Bool))).length = 7 := by
      simp [closeTagPart, List.takeWhile_cons]
    dsimp only
    rw [htw]
    have hne : (7 : Nat) ≠ (closeTagPart ++ extra).length := by
      simp only [closeTagPart, List.length_append, List.length_cons, List.length_nil]
      omega
    rw [if_neg hne]
    rw [htake7, hdrop8]
    rfl
  unfold parseTagF
  simp only [hlw1, hlw2, Bool.not_true, Bool.false_eq_true, if_false, if_true, reduceIte, hend]

/-- Compositional parser correctness, by strong induction on document
size: (1) `parseAll` parses an encoded document to its node list;
(2) `parseTag` parses an encoded color tag followed by anything;
(3) the children loop parses an encoded document up to a closing tag.
Fuel bounds: two units per input character plus a constant. -/
theorem parse_encode_bundle : ∀ n : Nat,
    (∀ (d : MDoc) (f : Nat), sizeOf d ≤ n → docOk d = true →
      2 * (encodeDoc d).length + 2 ≤ f →
      parseAllF f (encodeDoc d) = .ok (toNodes d)) ∧
    (∀ (hex : List Char) (body : MDoc) (extra : List Char) (f : Nat),
      sizeOf body + 1 ≤ n → hex.length = 8 → docOk body = true →
      2 * (17 + (encodeDoc body).length + 8 + extra.length) + 1 ≤ f →
      parseTagF f (openTagPart ++ hex ++ '>' :: (encodeDoc body ++ closeTagPart ++ extra))
        = .ok (.node (.color hex (hexToRgba hex) (toNodes body)), extra)) ∧
    (∀ (d : MDoc) (extra : List Char) (f : Nat), sizeOf d ≤ n → docOk d = true →
      2 * ((encodeDoc d).length + 8 + extra.length) + 2 ≤ f →
      parseTagF.children f (encodeDoc d ++ closeTagPart ++ extra) = .ok (toNodes d, extra)) := by
  intro n
  induction n using Nat.strong_induction_on with
  | _ n ih =>
    refine ⟨?_, ?_, ?_⟩
    · intro d f hsz hok hf
      cases d with
      | mnil =>
        obtain ⟨f', rfl⟩ : ∃ f', f = f' + 1 := ⟨f - 1, by omega⟩
        rfl
      | mtext t rest =>
        simp only [docOk, Bool.and_eq_true] at hok
        obtain ⟨⟨⟨htne, htall⟩, hnst⟩, hrest⟩ := hok
        have htn : t ≠ [] := by simpa using htne
        have htlen : 1 ≤ t.length := List.length_pos.mpr htn
        have hall' : ∀ c ∈ t, okTextChar c = true := fun c hc => List.all_eq_true.mp htall c hc
        have hnst' : startsWithTextItem rest = false := by simpa using hnst
        have hlen : (encodeDoc (MDoc.mtext t rest)).length
            = t.length + (encodeDoc rest).length := by
          simp [encodeDoc]
        have hspec : sizeOf (MDoc.mtext t rest) = 1 + sizeOf t + sizeOf rest := by simp
        obtain ⟨f', rfl⟩ : ∃ f', f = f' + 1 := ⟨f - 1, by omega⟩
        obtain ⟨f'', rfl⟩ : ∃ f'', f' = f'' + 1 := ⟨f' - 1, by omega⟩
        have hshape : encodeDoc rest = [] ∨ ∃ e, encodeDoc rest = '<' :: e := by
          have := encodeDoc_shape rest hnst' [] (Or.inl rfl)
          simpa using this
        show parseAllF (f'' + 1 + 1) (t ++ encodeDoc rest)
          = .ok (.cons (.text (t.map replaceChar)) (toNodes rest))
        rw [parseAllF_cons_eq (f'' + 1) _ (by simp [List.append_eq_nil, htn])]
        rw [parseTagF_text t (encodeDoc rest) f'' htn hall' hshape]
        dsimp only
        have hltm : sizeOf rest < n := by omega
        have hA := (ih (sizeOf rest) hltm).1 rest (f'' + 1) (le_refl _) hrest (by omega)
        rw [hA]
      | mtag hex body rest =>
        simp only [docOk, Bool.and_eq_true] at hok
        obtain ⟨⟨⟨h8b, hhexall⟩, hbody⟩, hrest⟩ := hok
        have h8 : hex.length = 8 := by simpa using h8b
        have hlen : (encodeDoc (MDoc.mtag hex body rest)).length
            = 25 + (encodeDoc body).length + (encodeDoc rest).length := by
          simp [encodeDoc, openTagPart, closeTagPart, h8]
          omega
        have hspec : sizeOf (MDoc.mtag hex body rest)
            = 1 + sizeOf hex + sizeOf body + sizeOf rest := by simp
        have hp1 := sizeOf_list_pos hex
        have hp2 := sizeOf_mdoc_pos body
        have hp3 := sizeOf_mdoc_pos rest
        obtain ⟨f', rfl⟩ : ∃ f', f = f' + 1 := ⟨f - 1, by omega⟩
        show parseAllF (f' + 1)
            (openTagPart ++ hex ++ '>' :: (encodeDoc body ++ closeTagPart ++ encodeDoc rest))
          = .ok (.cons (.color hex (hexToRgba hex) (toNodes body)) (toNodes rest))
        rw [parseAllF_cons_eq f' _ (by simp [openTagPart])]
        have hszb : sizeOf body + 1 < n := by omega
        have hT := (ih (sizeOf body + 1) hszb).2.1 hex body (encodeDoc rest) f'
          (le_refl _) h8 hbody (by omega)
        rw [hT]
        dsimp only
        have hszr : sizeOf rest < n := by omega
        have hA := (ih (sizeOf rest) hszr).1 rest f' (le_refl _) hrest (by omega)
        rw [hA]
    · intro hex body extra f hsz h8 hok hf
      obtain ⟨f', rfl⟩ : ∃ f', f = f' + 1 := ⟨f - 1, by omega⟩
      have hszb : sizeOf body < n := by omega
      have hC := (ih (sizeOf body) hszb).2.2 body extra f' (le_refl _) hok (by omega)
      exact parseTagF_tag_step hex _ f' h8 (toNodes body) extra hC
    · intro d extra f hsz hok hf
      cases d with
      | mnil =>
        obtain ⟨f', rfl⟩ : ∃ f', f = f' + 1 := ⟨f - 1, by omega⟩
        obtain ⟨f'', rfl⟩ : ∃ f'', f' = f'' + 1 := ⟨f' - 1, by omega⟩
        show parseTagF.children (f'' + 1 + 1) ([] ++ closeTagPart ++ extra) = .ok (.nil, extra)
        rw [show ([] : List Char) ++ closeTagPart ++ extra = closeTagPart ++ extra from by simp]
        rw [parseChildrenF_cons_eq (f'' + 1) _ (by simp [closeTagPart])]
        rw [parseTagF_close extra f'']
        simp
      | mtext t rest =>
        simp only [docOk, Bool.and_eq_true] at hok
        obtain ⟨⟨⟨htne, htall⟩, hnst⟩, hrest⟩ := hok
        have htn : t ≠ [] := by simpa using htne
        have htlen : 1 ≤ t.length := List.length_pos.mpr htn
        have hall' : ∀ c ∈ t, okTextChar c = true := fun c hc => List.all_eq_true.mp htall c hc
        have hnst' : startsWithTextItem rest = false := by simpa using hnst
        have hlen : (encodeDoc (MDoc.mtext t rest)).length
            = t.length + (encodeDoc rest).length := by
          simp [encodeDoc]
        have hspec : sizeOf (MDoc.mtext t rest) = 1 + sizeOf t + sizeOf rest := by simp
        obtain ⟨f', rfl⟩ : ∃ f', f = f' + 1 := ⟨f - 1, by omega⟩
        obtain ⟨f'', rfl⟩ : ∃ f'', f' = f'' + 1 := ⟨f' - 1, by omega⟩
        have hshape : encodeDoc rest ++ closeTagPart ++ extra = []
            ∨ ∃ e, encodeDoc rest ++ closeTagPart ++ extra = '<' :: e := by
          rw [List.append_assoc]
          refine encodeDoc_shape rest hnst' (closeTagPart ++ extra) (Or.inr ?_)
          exact ⟨'/' :: 'c' :: 'o' :: 'l' :: 'o' :: 'r' :: '>' :: extra, by simp [closeTagPart]⟩
        have hinput : encodeDoc (MDoc.mtext t rest) ++ closeTagPart ++ extra
            = t ++ (encodeDoc rest ++ closeTagPart ++ extra) := by
          simp [encodeDoc, List.append_assoc]
        rw [hinput]
        rw [parseChildrenF_cons_eq (f'' + 1) _ (by simp [List.append_eq_nil, htn])]
        rw [parseTagF_text t (encodeDoc rest ++ closeTagPart ++ extra) f'' htn hall' hshape]
        dsimp only
        have hltm : sizeOf rest < n := by omega
        have helen : (closeTagPart ++ extra).length = 8 + extra.length := by
          simp [closeTagPart]
          omega
        have hC := (ih (sizeOf rest) hltm).2.2 rest extra (f'' + 1) (le_refl _) hrest (by omega)
        rw [hC]
        rfl
      | mtag hex body rest =>
        simp only [docOk, Bool.and_eq_true] at hok
        obtain ⟨⟨⟨h8b, hhexall⟩, hbody⟩, hrest⟩ := hok
        have h8 : hex.length = 8 := by simpa using h8b
        have hlen : (encodeDoc (MDoc.mtag hex body rest)).length
            = 25 + (encodeDoc body).length + (encodeDoc rest).length := by
          simp [encodeDoc, openTagPart, closeTagPart, h8]
          omega
        have hlen2 : (encodeDoc rest ++ closeTagPart ++ extra).length
            = (encodeDoc rest).length + 8 + extra.length := by
          simp [closeTagPart]
          omega
        have hspec : sizeOf (MDoc.mtag hex body rest)
            = 1 + sizeOf hex + sizeOf body + sizeOf rest := by simp
        have hp1 := sizeOf_list_pos hex
        have hp2 := sizeOf_mdoc_pos body
        have hp3 := sizeOf_mdoc_pos rest
        obtain ⟨f', rfl⟩ : ∃ f', f = f' + 1 := ⟨f - 1, by omega⟩
        have hre : encodeDoc (MDoc.mtag hex body rest) ++ closeTagPart ++ extra
            = openTagPart ++ hex ++ '>'
              :: (encodeDoc body ++ closeTagPart ++ (encodeDoc rest ++ closeTagPart ++ extra)) := by
          simp [encodeDoc, List.append_assoc]
        rw [hre]
        rw [parseChildrenF_cons_eq f' _ (by simp [openTagPart])]
        have hszb : sizeOf body + 1 < n := by omega
        have hT := (ih (sizeOf body + 1) hszb).2.1 hex body
          (encodeDoc rest ++ closeTagPart ++ extra) f' (le_refl _) h8 hbody (by omega)
        rw [hT]
        dsimp only
        have hszr : sizeOf rest < n := by omega
        have hC := (ih (sizeOf rest) hszr).2.2 rest extra f' (le_refl _) hrest (by omega)
        rw [hC]
        rfl

/-- On a non-stand-in character the substitution table is the identity. -/
theorem replaceChar_id (c : Char) (h : isStandIn c = false) : replaceChar c = c := by
  simp only [isStandIn, Bool.or_eq_false_iff, decide_eq_false_iff_not] at h
  simp [replaceChar, h.1.1, h.1.2, h.2]

/-- A stand-in-free text run is untouched by the substitution table. -/
theorem map_replaceChar_id (t : List Char)
    (h : t.all (fun c => !isStandIn c) = true) : t.map replaceChar = t := by
  induction t with
  | nil => rfl
  | cons c cs ih =>
    simp only [List.all_cons, Bool.and_eq_true, Bool.not_eq_eq_eq_not, Bool.not_true] at h
    simp [replaceChar_id c h.1, ih (by simpa using h.2)]

/-- The markup-preserving renderer re-serializes the parse tree of a
stand-in-free document back to its encoding. -/
theorem renderNodes_toNodes (d : MDoc) (hns : noStandIns d = true) :
    renderNodes (toNodes d) = encodeDoc d := by
  induction d with
  | mnil => rfl
  | mtext t rest ih =>
    simp only [noStandIns, Bool.and_eq_true] at hns
    simp [toNodes, renderNodes, renderNode, encodeDoc, map_replaceChar_id t hns.1, ih hns.2]
  | mtag hex body rest ihb ihr =>
    simp only [noStandIns, Bool.and_eq_true] at hns
    simp [toNodes, renderNodes, renderNode, encodeDoc, ihb hns.1, ihr hns.2, List.append_assoc]

/-- C2 (counterexample): the claim fails on a well-formed markup string
made of a stand-in character: `parse` normalizes the angle-bracket
stand-in `\xc8` to a literal `<` in the text node, so the preserving
re-serialization yields `"<"`, not the original string. -/
theorem c2_standin_breaks_roundtrip :
    parse "\xc8" = .ok (.cons (.text ['<']) .nil) ∧
    renderNodes (.cons (.text ['<']) .nil) = ['<'] ∧
    "\xc8".data ≠ ['<'] := by
  refine ⟨by decide, by decide, by decide⟩

/-- C2 (amended): for every well-formed markup document whose text
contains no stand-in characters, `parse` of the encoded string succeeds
with exactly the expected tree, and the markup-preserving renderer
re-serializes that tree to exactly the original string. -/
theorem c2_wellformed_roundtrip (d : MDoc) (hok : docOk d = true)
    (hns : noStandIns d = true) :
    parse (String.mk (encodeDoc d)) = .ok (toNodes d) ∧
    renderNodes (toNodes d) = encodeDoc d := by
  constructor
  · exact (parse_encode_bundle (sizeOf d)).1 d (2 * (encodeDoc d).length + 2)
      (le_refl _) hok (le_refl _)
  · exact renderNodes_toNodes d hns

/-- Witness for `c2_wellformed_roundtrip` at the document encoding
`"a<color=#FF0000FF>b</color>"`. -/
theorem c2_wellformed_roundtrip_witness :
    parse (String.mk (encodeDoc (MDoc.mtext ['a']
        (.mtag ['F', 'F', '0', '0', '0', '0', 'F', 'F'] (.mtext ['b'] .mnil) .mnil))))
      = .ok (toNodes (MDoc.mtext ['a']
        (.mtag ['F', 'F', '0', '0', '0', '0', 'F', 'F'] (.mtext ['b'] .mnil) .mnil))) ∧
    renderNodes (toNodes (MDoc.mtext ['a']
        (.mtag ['F', 'F', '0', '0', '0', '0', 'F', 'F'] (.mtext ['b'] .mnil) .mnil)))
      = encodeDoc (MDoc.mtext ['a']
        (.mtag ['F', 'F', '0', '0', '0', '0', 'F', 'F'] (.mtext ['b'] .mnil) .mnil)) :=
  c2_wellformed_roundtrip _ (by decide) (by decide)

/-! ## C8 — the stripped rendering -/

/-- A true prefix test bounds the length. -/
theorem leadsWith_le (p : List Char) : ∀ l, leadsWith p l = true → p.length ≤ l.length := by
  induction p with
  | nil => intro l _; simp
  | cons a p' ih =>
    intro l h
    cases l with
    | nil => exact absurd h (by simp [leadsWith])
    | cons c cs =>
      simp only [leadsWith, Bool.and_eq_true] at h
      have := ih cs h.2
      simp only [List.length_cons]
      omega

/-- A successful open-tag match consumes exactly 17 characters. -/
theorem matchOpenTag_length {l r : List Char} (h : matchOpenTag l = some r) :
    l.length = r.length + 17 := by
  unfold matchOpenTag at h
  split at h
  · dsimp only at h
    split at h
    · rename_i hcond
      simp only [Bool.and_eq_true] at hcond
      have hgt := leadsWith_le ['>'] (l.drop 16) hcond.2
      simp only [List.length_cons, List.length_nil, List.length_drop] at hgt
      cases h
      simp only [List.length_drop]
      omega
    · exact absurd h (by simp)
  · exact absurd h (by simp)

/-- No open-tag match at a character other than `<`. -/
theorem matchOpenTag_cons_ne {c : Char} (cs : List Char) (h : c ≠ '<') :
    matchOpenTag (c :: cs) = none := by
  unfold matchOpenTag
  rw [if_neg]
  simp [leadsWith, Ne.symm h]

/-- No open-tag match at a `</color>`. -/
theorem matchOpenTag_closeTag (x : List Char) :
    matchOpenTag (closeTagPart ++ x) = none := by
  unfold matchOpenTag
  rw [if_neg]
  simp [leadsWith, openTagPart, closeTagPart]

/-- The regex matches exactly an encoded open tag with valid hex. -/
theorem matchOpenTag_open (hex z : List Char) (h8 : hex.length = 8)
    (hhex : hex.all isHexDigitU = true) :
    matchOpenTag (openTagPart ++ hex ++ '>' :: z) = some z := by
  have hlw : leadsWith openTagPart (openTagPart ++ hex ++ '>' :: z) = true := by
    have := leadsWith_append_self openTagPart (hex ++ '>' :: z)
    simpa [List.append_assoc] using this
  have hdrop8 : (openTagPart ++ hex ++ '>' :: z).drop 8 = hex ++ '>' :: z :=
    drop_exact openTagPart _
  have htake : (hex ++ '>' :: z).take 8 = hex := by
    rw [← h8]
    exact take_exact hex _
  have hdrop16 : (openTagPart ++ hex ++ '>' :: z).drop 16 = '>' :: z := by
    have h1 : (openTagPart ++ hex ++ '>' :: z).drop 16 = (hex ++ '>' :: z).drop 8 := by
      rw [show (16 : Nat) = openTagPart.length + 8 from rfl]
      exact List.drop_append 8
    rw [h1, ← h8]
    exact drop_exact hex _
  have hdrop17 : (openTagPart ++ hex ++ '>' :: z).drop 17 = z := by
    have h1 : (openTagPart ++ hex ++ '>' :: z).drop 17 = (hex ++ '>' :: z).drop 9 := by
      rw [show (17 : Nat) = openTagPart.length + 9 from rfl]
      exact List.drop_append 9
    rw [h1, show (9 : Nat) = hex.length + 1 from by omega, List.drop_append 1]
    simp
  unfold matchOpenTag
  rw [if_pos hlw]
  dsimp only
  rw [hdrop8, htake, hdrop16, hdrop17]
  rw [if_pos (by simp [h8, hhex, leadsWith])]

/-- A successful close-tag match consumes exactly 8 characters. -/
theorem matchCloseTag_length {l r : List Char} (h : matchCloseTag l = some r) :
    l.length = r.length + 8 := by
  unfold matchCloseTag at h
  split at h
  · rename_i hlw
    have h8 := leadsWith_le closeTagPart l hlw
    cases h
    simp only [List.length_drop]
    simp only [closeTagPart, List.length_cons, List.length_nil] at h8 ⊢
    omega
  · exact absurd h (by simp)

/-- No close-tag match at a character other than `<`. -/
theorem matchCloseTag_cons_ne {c : Char} (cs : List Char) (h : c ≠ '<') :
    matchCloseTag (c :: cs) = none := by
  unfold matchCloseTag
  rw [if_neg]
  simp [leadsWith, Ne.symm h]

/-- The close pass matches exactly `</color>`. -/
theorem matchCloseTag_close (x : List Char) :
    matchCloseTag (closeTagPart ++ x) = some x := by
  unfold matchCloseTag
  rw [if_pos (leadsWith_append_self closeTagPart x)]
  exact congrArg some (drop_exact closeTagPart x)

/-- Fuel irrelevance for the open-tag pass at or above the input length. -/
theorem pass1F_congr : ∀ (f g : Nat) (l : List Char),
    l.length ≤ f → l.length ≤ g → pass1F f l = pass1F g l := by
  intro f
  induction f with
  | zero =>
    intro g l hf _
    have : l = [] := by
      cases l with
      | nil => rfl
      | cons c cs => simp at hf
    subst this
    cases g <;> rfl
  | succ f' ih =>
    intro g l hf hg
    cases l with
    | nil => cases g <;> rfl
    | cons c cs =>
      cases g with
      | zero => simp at hg
      | succ g' =>
        show pass1F (f' + 1) (c :: cs) = pass1F (g' + 1) (c :: cs)
        unfold pass1F
        cases hm : matchOpenTag (c :: cs) with
        | some r =>
          have hl := matchOpenTag_length hm
          simp only [List.length_cons] at hf hg hl
          exact ih g' r (by omega) (by omega)
        | none =>
          simp only [List.length_cons] at hf hg
          rw [ih g' cs (by omega) (by omega)]

/-- Fuel irrelevance for the close-tag pass at or above the input length. -/
theorem pass2F_congr : ∀ (f g : Nat) (l : List Char),
    l.length ≤ f → l.length ≤ g → pass2F f l = pass2F g l := by
  intro f
  induction f with
  | zero =>
    intro g l hf _
    have : l = [] := by
      cases l with
      | nil => rfl
      | cons c cs => simp at hf
    subst this
    cases g <;> rfl
  | succ f' ih =>
    intro g l hf hg
    cases l with
    | nil => cases g <;> rfl
    | cons c cs =>
      cases g with
      | zero => simp at hg
      | succ g' =>
        show pass2F (f' + 1) (c :: cs) = pass2F (g' + 1) (c :: cs)
        unfold pass2F
        cases hm : matchCloseTag (c :: cs) with
        | some r =>
          have hl := matchCloseTag_length hm
          simp only [List.length_cons] at hf hg hl
          exact ih g' r (by omega) (by omega)
        | none =>
          simp only [List.length_cons] at hf hg
          rw [ih g' cs (by omega) (by omega)]

/-- One step of the fueled open-tag pass. -/
theorem pass1F_step (fuel : Nat) (c : Char) (cs : List Char) :
    pass1F (fuel + 1) (c :: cs) = (match matchOpenTag (c :: cs) with
      | some rest => pass1F fuel rest
      | none => c :: pass1F fuel cs) := rfl

/-- One step of the fueled close-tag pass. -/
theorem pass2F_step (fuel : Nat) (c : Char) (cs : List Char) :
    pass2F (fuel + 1) (c :: cs) = (match matchCloseTag (c :: cs) with
      | some rest => pass2F fuel rest
      | none => c :: pass2F fuel cs) := rfl

/-- Step equation for `pass1` at a match. -/
theorem pass1_some {l r : List Char} (h : matchOpenTag l = some r) : pass1 l = pass1 r := by
  have hl := matchOpenTag_length h
  cases l with
  | nil => simp at hl
  | cons c cs =>
    show pass1F (c :: cs).length (c :: cs) = pass1F r.length r
    rw [show (c :: cs).length = cs.length + 1 from rfl, pass1F_step, h]
    simp only [List.length_cons] at hl
    exact pass1F_congr cs.length r.length r (by omega) (le_refl _)

/-- Step equation for `pass1` at a non-match. -/
theorem pass1_cons_none {c : Char} {cs : List Char} (h : matchOpenTag (c :: cs) = none) :
    pass1 (c :: cs) = c :: pass1 cs := by
  show pass1F (c :: cs).length (c :: cs) = c :: pass1F cs.length cs
  rw [show (c :: cs).length = cs.length + 1 from rfl, pass1F_step, h]

/-- Step equation for `pass2` at a match. -/
theorem pass2_some {l r : List Char} (h : matchCloseTag l = some r) : pass2 l = pass2 r := by
  have hl := matchCloseTag_length h
  cases l with
  | nil => simp at hl
  | cons c cs =>
    show pass2F (c :: cs).length (c :: cs) = pass2F r.length r
    rw [show (c :: cs).length = cs.length + 1 from rfl, pass2F_step, h]
    simp only [List.length_cons] at hl
    exact pass2F_congr cs.length r.length r (by omega) (le_refl _)

/-- Step equation for `pass2` at a non-match. -/
theorem pass2_cons_none {c : Char} {cs : List Char} (h : matchCloseTag (c :: cs) = none) :
    pass2 (c :: cs) = c :: pass2 cs := by
  show pass2F (c :: cs).length (c :: cs) = c :: pass2F cs.length cs
  rw [show (c :: cs).length = cs.length + 1 from rfl, pass2F_step, h]

/-- The open-tag pass walks through `<`-free text unchanged. -/
theorem pass1_text (t : List Char) (h : ∀ c ∈ t, c ≠ '<') :
    ∀ z, pass1 (t ++ z) = t ++ pass1 z := by
  induction t with
  | nil => intro z; simp
  | cons c t' ih =>
    intro z
    have hc : c ≠ '<' := h c (by simp)
    rw [List.cons_append, pass1_cons_none (matchOpenTag_cons_ne _ hc)]
    rw [ih (fun x hx => h x (by simp [hx])) z]
    rfl

/-- The close-tag pass walks through `<`-free text unchanged. -/
theorem pass2_text (t : List Char) (h : ∀ c ∈ t, c ≠ '<') :
    ∀ z, pass2 (t ++ z) = t ++ pass2 z := by
  induction t with
  | nil => intro z; simp
  | cons c t' ih =>
    intro z
    have hc : c ≠ '<' := h c (by simp)
    rw [List.cons_append, pass2_cons_none (matchCloseTag_cons_ne _ hc)]
    rw [ih (fun x hx => h x (by simp [hx])) z]
    rfl

/-- The open-tag pass walks through a `</color>` unchanged. -/
theorem pass1_close (z : List Char) : pass1 (closeTagPart ++ z) = closeTagPart ++ pass1 z := by
  have hm : matchOpenTag ('<' :: (['/', 'c', 'o', 'l', 'o', 'r', '>'] ++ z)) = none := by
    have := matchOpenTag_closeTag z
    simpa [closeTagPart] using this
  rw [show closeTagPart ++ z = '<' :: (['/', 'c', 'o', 'l', 'o', 'r', '>'] ++ z)
    from by simp [closeTagPart]]
  rw [pass1_cons_none hm]
  rw [pass1_text ['/', 'c', 'o', 'l', 'o', 'r', '>'] (by decide) z]
  simp [closeTagPart]

/-- Characters of a well-formed text run are not `<`. -/
theorem okText_ne_lt {t : List Char} (h : t.all okTextChar = true) : ∀ c ∈ t, c ≠ '<' := by
  intro c hc
  have := List.all_eq_true.mp h c hc
  simp only [okTextChar, Bool.and_eq_true, decide_eq_true_eq] at this
  exact this.1

/-- The first `removeColors` pass deletes exactly the open tags of an
encoded well-formed document. -/
theorem pass1_encode (d : MDoc) (hok : docOk d = true) :
    ∀ z, pass1 (encodeDoc d ++ z) = eraseOpens d ++ pass1 z := by
  induction d with
  | mnil => intro z; simp [encodeDoc, eraseOpens]
  | mtext t rest ih =>
    intro z
    simp only [docOk, Bool.and_eq_true] at hok
    obtain ⟨⟨⟨_, htall⟩, _⟩, hrest⟩ := hok
    have heq : encodeDoc (MDoc.mtext t rest) ++ z = t ++ (encodeDoc rest ++ z) := by
      simp [encodeDoc, List.append_assoc]
    rw [heq, pass1_text t (okText_ne_lt htall) (encodeDoc rest ++ z), ih hrest z]
    simp [eraseOpens, List.append_assoc]
  | mtag hex body rest ihb ihr =>
    intro z
    simp only [docOk, Bool.and_eq_true] at hok
    obtain ⟨⟨⟨h8b, hhex⟩, hbody⟩, hrest⟩ := hok
    have h8 : hex.length = 8 := by simpa using h8b
    have heq : encodeDoc (MDoc.mtag hex body rest) ++ z
        = openTagPart ++ hex ++ '>' :: (encodeDoc body ++ (closeTagPart ++ (encodeDoc rest ++ z))) := by
      simp [encodeDoc, List.append_assoc]
    rw [heq, pass1_some (matchOpenTag_open hex _ h8 hhex)]
    rw [ihb hbody (closeTagPart ++ (encodeDoc rest ++ z))]
    rw [pass1_close (encodeDoc rest ++ z)]
    rw [ihr hrest z]
    simp [eraseOpens, List.append_assoc]

/-- The second `removeColors` pass deletes exactly the close tags the
first pass left behind. -/
theorem pass2_erase (d : MDoc) (hok : docOk d = true) :
    ∀ z, pass2 (eraseOpens d ++ z) = plainText d ++ pass2 z := by
  induction d with
  | mnil => intro z; simp [eraseOpens, plainText]
  | mtext t rest ih =>
    intro z
    simp only [docOk, Bool.and_eq_true] at hok
    obtain ⟨⟨⟨_, htall⟩, _⟩, hrest⟩ := hok
    have heq : eraseOpens (MDoc.mtext t rest) ++ z = t ++ (eraseOpens rest ++ z) := by
      simp [eraseOpens, List.append_assoc]
    rw [heq, pass2_text t (okText_ne_lt htall) (eraseOpens rest ++ z), ih hrest z]
    simp [plainText, List.append_assoc]
  | mtag hex body rest ihb ihr =>
    intro z
    simp only [docOk, Bool.and_eq_true] at hok
    obtain ⟨⟨⟨_, _⟩, hbody⟩, hrest⟩ := hok
    have heq : eraseOpens (MDoc.mtag hex body rest) ++ z
        = eraseOpens body ++ (closeTagPart ++ (eraseOpens rest ++ z)) := by
      simp [eraseOpens, List.append_assoc]
    rw [heq, ihb hbody (closeTagPart ++ (eraseOpens rest ++ z))]
    rw [pass2_some (matchCloseTag_close (eraseOpens rest ++ z))]
    rw [ihr hrest z]
    simp [plainText, List.append_assoc]

/-- `removeColors` turns an encoded well-formed document into its bare
text. -/
theorem removeColors_encode (d : MDoc) (hok : docOk d = true) :
    removeColorsData (encodeDoc d) = plainText d := by
  unfold removeColorsData
  have h1 := pass1_encode d hok []
  rw [List.append_nil] at h1
  rw [show pass1 ([] : List Char) = [] from rfl] at h1
  rw [List.append_nil] at h1
  rw [h1]
  have h2 := pass2_erase d hok []
  rw [List.append_nil] at h2
  rw [show pass2 ([] : List Char) = [] from rfl] at h2
  rw [List.append_nil] at h2
  exact h2

/-- The bare text of a well-formed document contains no angle brackets. -/
theorem plainText_no_angle (d : MDoc) (hok : docOk d = true) :
    ∀ c ∈ plainText d, c ≠ '<' ∧ c ≠ '>' := by
  induction d with
  | mnil => intro c hc; simp [plainText] at hc
  | mtext t rest ih =>
    intro c hc
    simp only [docOk, Bool.and_eq_true] at hok
    obtain ⟨⟨⟨_, htall⟩, _⟩, hrest⟩ := hok
    simp only [plainText, List.mem_append] at hc
    rcases hc with hc | hc
    · have := List.all_eq_true.mp htall c hc
      simp only [okTextChar, Bool.and_eq_true, decide_eq_true_eq] at this
      exact this
    · exact ih hrest c hc
  | mtag hex body rest ihb ihr =>
    intro c hc
    simp only [docOk, Bool.and_eq_true] at hok
    obtain ⟨⟨⟨_, _⟩, hbody⟩, hrest⟩ := hok
    simp only [plainText, List.mem_append] at hc
    rcases hc with hc | hc
    · exact ihb hbody c hc
    · exact ihr hrest c hc

/-- A character never survives its own global replacement. -/
theorem replaceAllChar_not_mem (a b : Char) (h : b ≠ a) (l : List Char) :
    a ∉ replaceAllChar a b l := by
  intro hmem
  rw [replaceAllChar, List.mem_map] at hmem
  obtain ⟨c, _, hc⟩ := hmem
  by_cases hca : c = a
  · rw [if_pos hca] at hc
    exact h hc
  · rw [if_neg hca] at hc
    exact hca hc

/-- A global replacement introduces only its replacement character. -/
theorem replaceAllChar_not_mem_other (a b x : Char) (l : List Char)
    (hx : x ∉ l) (hxb : x ≠ b) : x ∉ replaceAllChar a b l := by
  intro hmem
  rw [replaceAllChar, List.mem_map] at hmem
  obtain ⟨c, hcl, hc⟩ := hmem
  by_cases hca : c = a
  · rw [if_pos hca] at hc
    exact hxb hc.symm
  · rw [if_neg hca] at hc
    exact hx (hc ▸ hcl)

/-- C8 (counterexample): the claim fails on arbitrary markup strings.
For `"</co</color>lor>"` the two `replaceAll` passes leave the literal
`"</color>"` — markup syntax — in the stripped output; and the backtick
stand-in `\xab` is a stand-in character that survives the stripped
rendering unchanged. -/
theorem c8_stripping_fails_on_adversarial_input :
    uncoloredConvert "</co</color>lor>" = "</color>" ∧
    uncoloredConvert "\xab" = "\xab" ∧
    isStandIn '\xab' = true := by
  refine ⟨by decide, by decide, by decide⟩

/-- C8 (amended): for every well-formed markup string, `removeColors`
leaves no `<` or `>` at all (hence no `<color=#RRGGBBAA>` or `</color>`
markup syntax), and the final stripped rendering contains neither
angle-bracket stand-in character — both are reversed to literal angle
brackets.  (The backtick stand-in `\xab` is not touched by this path.) -/
theorem c8_stripped_render_clean (d : MDoc) (hok : docOk d = true) :
    (∀ c ∈ removeColorsData (encodeDoc d), c ≠ '<' ∧ c ≠ '>') ∧
    '\xc8' ∉ (uncoloredConvert (String.mk (encodeDoc d))).data ∧
    '\xc9' ∉ (uncoloredConvert (String.mk (encodeDoc d))).data := by
  refine ⟨?_, ?_, ?_⟩
  · rw [removeColors_encode d hok]
    exact plainText_no_angle d hok
  · show '\xc8' ∉ replaceAllChar '\xc9' '>' (replaceAllChar '\xc8' '<' (removeColorsData (encodeDoc d)))
    exact replaceAllChar_not_mem_other '\xc9' '>' '\xc8' _
      (replaceAllChar_not_mem '\xc8' '<' (by decide) _) (by decide)
  · show '\xc9' ∉ replaceAllChar '\xc9' '>' (replaceAllChar '\xc8' '<' (removeColorsData (encodeDoc d)))
    exact replaceAllChar_not_mem '\xc9' '>' (by decide) _

/-- Witness for `c8_stripped_render_clean` at the well-formed string
`"a\xc8b\xc9<color=#FF0000FF>c</color>"`. -/
theorem c8_stripped_render_clean_witness :
    (∀ c ∈ removeColorsData (encodeDoc (MDoc.mtext ['a', '\xc8', 'b', '\xc9']
        (.mtag ['F', 'F', '0', '0', '0', '0', 'F', 'F'] (.mtext ['c'] .mnil) .mnil))),
      c ≠ '<' ∧ c ≠ '>') ∧
    '\xc8' ∉ (uncoloredConvert (String.mk (encodeDoc (MDoc.mtext ['a', '\xc8', 'b', '\xc9']
        (.mtag ['F', 'F', '0', '0', '0', '0', 'F', 'F'] (.mtext ['c'] .mnil) .mnil))))).data ∧
    '\xc9' ∉ (uncoloredConvert (String.mk (encodeDoc (MDoc.mtext ['a', '\xc8', 'b', '\xc9']
        (.mtag ['F', 'F', '0', '0', '0', '0', 'F', 'F'] (.mtext ['c'] .mnil) .mnil))))).data :=
  c8_stripped_render_clean _ (by decide)
